import Mathlib

/-!
Verification of the `StreamToExpander` log sink from `src/app.py` of the
grant-researcher repository.

Python strings are modelled as lists of characters (`PyStr`).  The regex
substitution `re.sub(r'\x1B\[\d+;?\d*m', '', data)` is modelled by a
left-to-right scanner (`cleanSGR`): regex matching here is deterministic
greedy because `\d`, `;` and `m` are pairwise disjoint character classes, so
backtracking can never produce a match where the greedy scan fails.  `\d` is
modelled as an ASCII decimal digit (`Char.isDigit`); all inputs of interest
in this development are ASCII.

The sink state is `StreamToExpander`: `buffer` is the pending-fragment list,
`buffer_limit` the fragment cap (Python allows any integer, hence `Int`),
and `expander` records the transcript of display updates
(`expander.markdown(...)` calls), in order.  `write` returns `Option`
because `self.buffer.pop(0)` raises `IndexError` on an empty list; `none`
models that exception.
-/

abbrev PyStr := List Char

/-- The tail of an SGR match: given the text after `ESC [`, match
`\d+;?\d*m` greedily and return the remainder, or `none` if there is no
match (from `src/app.py` line 31). -/
def sgrTail (s : PyStr) : Option PyStr :=
  match s with
  | c :: t =>
    if c.isDigit then
      let r := t.dropWhile Char.isDigit
      let r2 := match r with
        | ';' :: u => u.dropWhile Char.isDigit
        | _ => r
      match r2 with
      | 'm' :: rest => some rest
      | _ => none
    else none
  | [] => none

/-- Fuel-indexed scanner for `re.sub(r'\x1B\[\d+;?\d*m', '', ·)`: at each
position, if a match of the pattern starts there it is removed and scanning
resumes after it, otherwise the character is kept.  `fuel ≥ s.length`
suffices (each step consumes at least one character). -/
def cleanAux : Nat → PyStr → PyStr
  | _, [] => []
  | 0, s => s
  | fuel + 1, c :: t =>
    if c = '\x1B' then
      match t with
      | '[' :: t2 =>
        match sgrTail t2 with
        | some rest => cleanAux fuel rest
        | none => c :: cleanAux fuel t
      | _ => c :: cleanAux fuel t
    else c :: cleanAux fuel t

/-- `re.sub(r'\x1B\[\d+;?\d*m', '', s)` — strip SGR escape sequences
(`src/app.py` line 31). -/
def cleanSGR (s : PyStr) : PyStr := cleanAux s.length s

/-- `hasSGRMatch s` is true iff a match of the code's escape pattern starts
at some position of `s`.  `re.sub` replaces only matches, so a string with
no match anywhere — malformed, truncated or unmatched escapes included —
passes through unchanged. -/
def hasSGRMatch : PyStr → Bool
  | [] => false
  | c :: t =>
    ((c == '\x1B') && (match t with
      | '[' :: t2 => (sgrTail t2).isSome
      | _ => false)) || hasSGRMatch t

/-- State of the `StreamToExpander` sink (`src/app.py` lines 23–43).
`expander` is the in-order transcript of display updates. -/
structure StreamToExpander where
  buffer : List PyStr
  buffer_limit : Int
  expander : List PyStr
  deriving Repr, DecidableEq

namespace StreamToExpander

/-- `StreamToExpander.__init__`: fresh sink, empty buffer, no renders yet.
The Python default for `buffer_limit` is 10000. -/
def fresh (limit : Int) : StreamToExpander :=
  { buffer := [], buffer_limit := limit, expander := [] }

/-- The conditional eviction in `write` (`src/app.py` lines 32–33):
`if len(self.buffer) >= self.buffer_limit: self.buffer.pop(0)`.
Returns the buffer after the conditional pop; `none` models the
`IndexError` raised by `pop(0)` on an empty list. -/
def popIfFull (s : StreamToExpander) : Option (List PyStr) :=
  if (s.buffer.length : Int) ≥ s.buffer_limit then
    match s.buffer with
    | [] => none
    | _ :: t => some t
  else some s.buffer

/-- `StreamToExpander.write` (`src/app.py` lines 29–38): strip SGR codes,
evict the oldest fragment if at capacity, append; if the raw incoming
`data` contains a newline, render the joined buffer as one display update
and clear the buffer. -/
def write (s : StreamToExpander) (data : PyStr) : Option StreamToExpander :=
  let cleaned := cleanSGR data
  match s.popIfFull with
  | none => none
  | some b =>
    let b2 := b ++ [cleaned]
    if '\n' ∈ data then
      some { s with buffer := [], expander := s.expander ++ [b2.flatten] }
    else
      some { s with buffer := b2 }

/-- `StreamToExpander.flush` (`src/app.py` lines 40–43): if the buffer is
non-empty, render the joined buffer and clear it; otherwise do nothing. -/
def flush (s : StreamToExpander) : StreamToExpander :=
  if s.buffer = [] then s
  else { s with buffer := [], expander := s.expander ++ [s.buffer.flatten] }

/-- Run a sequence of `write` calls, propagating the exception (`none`). -/
def writeMany (s : StreamToExpander) : List PyStr → Option StreamToExpander
  | [] => some s
  | w :: ws => (s.write w).bind (fun s2 => s2.writeMany ws)

end StreamToExpander

/-- A call on the sink: either `write(fragment)` or `flush()`. -/
inductive SinkOp where
  | write (data : PyStr)
  | flush
  deriving Repr, DecidableEq

/-- Run a sequence of `write`/`flush` calls, propagating the exception. -/
def runOps (s : StreamToExpander) : List SinkOp → Option StreamToExpander
  | [] => some s
  | SinkOp.write d :: ops => (s.write d).bind (fun s2 => runOps s2 ops)
  | SinkOp.flush :: ops => runOps s.flush ops

/-! ### List helper lemmas -/

theorem length_dropWhile_le (p : Char → Bool) (l : List Char) :
    (l.dropWhile p).length ≤ l.length := by
  induction l with
  | nil => simp [List.dropWhile]
  | cons c t ih =>
    by_cases h : p c
    · simp only [List.dropWhile_cons_of_pos h]
      exact Nat.le_succ_of_le ih
    · simp [List.dropWhile_cons_of_neg h]

theorem mem_dropWhile_iff {p : Char → Bool} {a : Char} (ha : ¬ p a)
    (l : List Char) : a ∈ l.dropWhile p ↔ a ∈ l := by
  induction l with
  | nil => simp [List.dropWhile]
  | cons c t ih =>
    by_cases h : p c
    · simp only [List.dropWhile_cons_of_pos h, ih, List.mem_cons]
      constructor
      · exact Or.inr
      · rintro (rfl | hm)
        · exact absurd h ha
        · exact hm
    · simp [List.dropWhile_cons_of_neg h]

theorem sgrTail_length {s r : PyStr} (h : sgrTail s = some r) :
    r.length < s.length := by
  match s with
  | [] => simp [sgrTail] at h
  | c :: t =>
    simp only [sgrTail] at h
    split at h
    · split at h
      · rename_i r2 rest heq
        simp only [Option.some.injEq] at h
        subst h
        split at heq
        · rename_i u hsemi
          have h1 : (t.dropWhile Char.isDigit).length ≤ t.length :=
            length_dropWhile_le _ _
          have h2 : (u.dropWhile Char.isDigit).length ≤ u.length :=
            length_dropWhile_le _ _
          rw [hsemi] at h1
          rw [heq] at h2
          simp only [List.length_cons] at *
          omega
        · rename_i hnot
          have h1 : (t.dropWhile Char.isDigit).length ≤ t.length :=
            length_dropWhile_le _ _
          rw [heq] at h1
          simp only [List.length_cons] at *
          omega
      · exact absurd h (by simp)
    · exact absurd h (by simp)

theorem sgrTail_mem {s r : PyStr} {a : Char} (h : sgrTail s = some r)
    (hd : a.isDigit = false) (hs : a ≠ ';') (hm : a ≠ 'm') :
    a ∈ s ↔ a ∈ r := by
  match s with
  | [] => simp [sgrTail] at h
  | c :: t =>
    simp only [sgrTail] at h
    split at h
    · rename_i hc
      split at h
      · rename_i r2 rest heq
        simp only [Option.some.injEq] at h
        subst h
        have hac : a ≠ c := by
          intro hEq
          rw [← hEq, hd] at hc
          exact Bool.noConfusion hc
        have ht : a ∈ t ↔ a ∈ t.dropWhile Char.isDigit :=
          (mem_dropWhile_iff (by simp [hd]) t).symm
        split at heq
        · rename_i u hsemi
          have hu : a ∈ u ↔ a ∈ u.dropWhile Char.isDigit :=
            (mem_dropWhile_iff (by simp [hd]) u).symm
          rw [hsemi] at ht
          rw [heq] at hu
          simp only [List.mem_cons] at ht hu ⊢
          rw [ht, hu]
          simp [hac, hs, hm]
        · rw [heq] at ht
          simp only [List.mem_cons] at ht ⊢
          rw [ht]
          simp [hac, hm]
      · exact absurd h (by simp)
    · exact absurd h (by simp)



theorem cleanAux_mem {a : Char} (ha1 : a ≠ '\x1B') (ha2 : a ≠ '[')
    (hd : a.isDigit = false) (hs : a ≠ ';') (hm : a ≠ 'm') :
    ∀ (n : Nat) (s : PyStr), s.length ≤ n → (a ∈ cleanAux n s ↔ a ∈ s) := by
  intro n
  induction n with
  | zero =>
    intro s hlen
    have hnil : s = [] := List.eq_nil_of_length_eq_zero (Nat.le_zero.mp hlen)
    subst hnil
    simp [cleanAux]
  | succ n ih =>
    intro s hlen
    match s with
    | [] => simp [cleanAux]
    | c :: t =>
      simp only [List.length_cons, Nat.succ_le_succ_iff] at hlen
      simp only [cleanAux]
      by_cases hc : c = '\x1B'
      · rw [if_pos hc]
        subst hc
        split
        · rename_i t' t2
          split
          · rename_i rest hres
            have hlt := sgrTail_length hres
            simp only [List.length_cons] at hlen
            rw [ih rest (by omega)]
            rw [← sgrTail_mem hres hd hs hm]
            simp [ha1, ha2]
          · rename_i hres
            simp only [List.mem_cons, ih _ hlen]
        · rename_i t' hne
          simp only [List.mem_cons, ih t hlen]
      · rw [if_neg hc]
        simp only [List.mem_cons, ih t hlen]

theorem cleanAux_no_esc :
    ∀ (n : Nat) (s : PyStr), s.length ≤ n → '\x1B' ∉ s → cleanAux n s = s := by
  intro n
  induction n with
  | zero =>
    intro s hlen _
    have hnil : s = [] := List.eq_nil_of_length_eq_zero (Nat.le_zero.mp hlen)
    subst hnil
    simp [cleanAux]
  | succ n ih =>
    intro s hlen hesc
    match s with
    | [] => simp [cleanAux]
    | c :: t =>
      simp only [List.length_cons, Nat.succ_le_succ_iff] at hlen
      simp only [List.mem_cons, not_or] at hesc
      simp only [cleanAux]
      rw [if_neg (fun hEq => hesc.1 hEq.symm)]
      rw [ih t hlen hesc.2]

theorem cleanSGR_no_esc {s : PyStr} (h : '\x1B' ∉ s) : cleanSGR s = s :=
  cleanAux_no_esc s.length s le_rfl h

theorem cleanAux_no_match :
    ∀ (n : Nat) (s : PyStr), s.length ≤ n → hasSGRMatch s = false →
      cleanAux n s = s := by
  intro n
  induction n with
  | zero =>
    intro s hlen _
    have hnil : s = [] := List.eq_nil_of_length_eq_zero (Nat.le_zero.mp hlen)
    subst hnil
    simp [cleanAux]
  | succ n ih =>
    intro s hlen hno
    match s with
    | [] => simp [cleanAux]
    | c :: t =>
      simp only [List.length_cons, Nat.succ_le_succ_iff] at hlen
      simp only [hasSGRMatch, Bool.or_eq_false_iff, Bool.and_eq_false_iff] at hno
      simp only [cleanAux]
      by_cases hc : c = '\x1B'
      · rw [if_pos hc]
        subst hc
        split
        · rename_i t' t2
          split
          · rename_i rest hres
            rcases hno.1 with hne | hfalse
            · simp at hne
            · simp [hres] at hfalse
          · rw [ih _ hlen hno.2]
        · rename_i t' hne
          rw [ih t hlen hno.2]
      · rw [if_neg hc, ih t hlen hno.2]

theorem cleanSGR_no_match {s : PyStr} (h : hasSGRMatch s = false) :
    cleanSGR s = s :=
  cleanAux_no_match s.length s le_rfl h

/-- Written from the spec's words, not from the source (for comparison with
`sgrTail`): tail matcher for the stated pattern after `ESC [`.  With
`strict = true` the optional group is `;` followed by **one or more**
digits, exactly as C5 states the pattern; with `strict = false` it is `;`
followed by zero or more digits (the amended pattern). -/
def specTail (strict : Bool) (s : PyStr) : Option PyStr :=
  match s.takeWhile Char.isDigit, s.dropWhile Char.isDigit with
  | [], _ => none
  | _ :: _, ';' :: u =>
    if strict = true ∧ u.takeWhile Char.isDigit = [] then none
    else
      match u.dropWhile Char.isDigit with
      | 'm' :: rest => some rest
      | _ => none
  | _ :: _, 'm' :: rest => some rest
  | _, _ => none

theorem specTail_false_eq (s : PyStr) : specTail false s = sgrTail s := by
  match s with
  | [] => rfl
  | c :: t =>
    by_cases hc : Char.isDigit c
    · simp only [specTail, sgrTail, List.takeWhile_cons_of_pos hc,
        List.dropWhile_cons_of_pos hc, if_pos hc]
      rcases hdrop : t.dropWhile Char.isDigit with - | ⟨d, u⟩
      · rfl
      · split
        · simp_all
        · rename_i u' heq
          simp_all
        · rename_i rest heq
          simp_all
        · rename_i hne1 hne2
          have hds : d ≠ ';' := fun h => hne1 c (List.takeWhile Char.isDigit t) u rfl (by rw [h])
          have hdm : d ≠ 'm' := fun h => hne2 c (List.takeWhile Char.isDigit t) u rfl (by rw [h])
          split
          · rename_i u' heq
            split at heq
            · rename_i u'' hsemi
              exact absurd (List.cons.inj hsemi).1 hds
            · exact absurd (List.cons.inj heq).1 hdm
          · rfl
    · simp only [specTail, sgrTail, List.takeWhile_cons_of_neg hc,
        List.dropWhile_cons_of_neg hc, if_neg hc]

/-- Scanner over the spec-worded tail matcher: removes all non-overlapping
leftmost matches, leaving every other character untouched. -/
def specStripAux (strict : Bool) : Nat → PyStr → PyStr
  | _, [] => []
  | 0, s => s
  | fuel + 1, c :: t =>
    if c = '\x1B' then
      match t with
      | '[' :: t2 =>
        match specTail strict t2 with
        | some rest => specStripAux strict fuel rest
        | none => c :: specStripAux strict fuel t
      | _ => c :: specStripAux strict fuel t
    else c :: specStripAux strict fuel t

/-- Written from the spec's words, not from the source: remove all
non-overlapping matches of the stated escape pattern. -/
def specStrip (strict : Bool) (s : PyStr) : PyStr := specStripAux strict s.length s

theorem specStripAux_false_eq :
    ∀ (n : Nat) (s : PyStr), specStripAux false n s = cleanAux n s := by
  intro n
  induction n with
  | zero =>
    intro s
    match s with
    | [] => rfl
    | c :: t => rfl
  | succ n ih =>
    intro s
    match s with
    | [] => rfl
    | c :: t =>
      simp only [specStripAux, cleanAux]
      by_cases hc : c = '\x1B'
      · rw [if_pos hc, if_pos hc]
        split
        · rename_i t2
          rw [specTail_false_eq]
          split
          · rename_i rest heq
            exact ih rest
          · rename_i heq
            rw [ih]
        · rename_i t' hne
          rw [ih]
      · rw [if_neg hc, if_neg hc, ih]


/-! ### Operational lemmas about the sink -/

theorem flush_buffer (s : StreamToExpander) : s.flush.buffer = [] := by
  unfold StreamToExpander.flush
  by_cases h : s.buffer = []
  · rw [if_pos h, h]
  · rw [if_neg h]

theorem flush_limit (s : StreamToExpander) :
    s.flush.buffer_limit = s.buffer_limit := by
  unfold StreamToExpander.flush
  by_cases h : s.buffer = []
  · rw [if_pos h]
  · rw [if_neg h]

theorem flush_expander_flatten (s : StreamToExpander) :
    s.flush.expander.flatten = s.expander.flatten ++ s.buffer.flatten := by
  unfold StreamToExpander.flush
  by_cases h : s.buffer = []
  · rw [if_pos h, h]
    simp
  · rw [if_neg h]
    simp

theorem write_not_full {s : StreamToExpander} (data : PyStr)
    (h : (s.buffer.length : Int) < s.buffer_limit) :
    s.write data =
      some (if '\n' ∈ data then
              { s with buffer := [],
                       expander := s.expander ++ [(s.buffer ++ [cleanSGR data]).flatten] }
            else { s with buffer := s.buffer ++ [cleanSGR data] }) := by
  unfold StreamToExpander.write StreamToExpander.popIfFull
  rw [if_neg (not_le.mpr h)]
  by_cases hn : '\n' ∈ data
  · simp [hn]
  · simp [hn]

theorem write_full {s : StreamToExpander} (data : PyStr) (c : PyStr)
    (b : List PyStr) (hb : s.buffer = c :: b)
    (h : (s.buffer.length : Int) ≥ s.buffer_limit) :
    s.write data =
      some (if '\n' ∈ data then
              { s with buffer := [],
                       expander := s.expander ++ [(b ++ [cleanSGR data]).flatten] }
            else { s with buffer := b ++ [cleanSGR data] }) := by
  unfold StreamToExpander.write StreamToExpander.popIfFull
  rw [if_pos h, hb]
  by_cases hn : '\n' ∈ data
  · simp [hn]
  · simp [hn]

theorem write_empty_full {s : StreamToExpander} (data : PyStr)
    (hb : s.buffer = []) (h : s.buffer_limit ≤ 0) :
    s.write data = none := by
  unfold StreamToExpander.write StreamToExpander.popIfFull
  rw [hb]
  rw [if_pos (by simpa using h)]


theorem writeMany_no_evict :
    ∀ (ws : List PyStr) (s : StreamToExpander),
      (s.buffer.length + ws.length : Int) ≤ s.buffer_limit →
      ∃ s2, s.writeMany ws = some s2 ∧
        s2.buffer_limit = s.buffer_limit ∧
        s2.expander.flatten ++ s2.buffer.flatten
          = s.expander.flatten ++ s.buffer.flatten ++ (ws.map cleanSGR).flatten := by
  intro ws
  induction ws with
  | nil =>
    intro s h
    exact ⟨s, rfl, rfl, by simp⟩
  | cons w ws ih =>
    intro s h
    simp only [List.length_cons] at h
    have hlt : (s.buffer.length : Int) < s.buffer_limit := by push_cast at h ⊢; omega
    rw [StreamToExpander.writeMany, write_not_full w hlt]
    by_cases hn : '\n' ∈ w
    · rw [if_pos hn]
      obtain ⟨s2, hrun, hlim, hconcat⟩ :=
        ih { s with buffer := [],
                    expander := s.expander ++ [(s.buffer ++ [cleanSGR w]).flatten] }
          (by simp only [List.length_nil]; push_cast at h ⊢; omega)
      refine ⟨s2, ?_, hlim, ?_⟩
      · simpa using hrun
      · rw [hconcat]
        simp [List.flatten_append, List.append_assoc]
    · rw [if_neg hn]
      obtain ⟨s2, hrun, hlim, hconcat⟩ :=
        ih { s with buffer := s.buffer ++ [cleanSGR w] }
          (by simp only [List.length_append, List.length_cons, List.length_nil]
              push_cast at h ⊢; omega)
      refine ⟨s2, ?_, hlim, ?_⟩
      · simpa using hrun
      · rw [hconcat]
        simp [List.flatten_append, List.append_assoc]

theorem runOps_bounded :
    ∀ (ops : List SinkOp) (s : StreamToExpander),
      1 ≤ s.buffer_limit →
      (s.buffer.length : Int) ≤ s.buffer_limit →
      ∃ s2, runOps s ops = some s2 ∧ s2.buffer_limit = s.buffer_limit ∧
        (s2.buffer.length : Int) ≤ s2.buffer_limit := by
  intro ops
  induction ops with
  | nil =>
    intro s h1 hb
    exact ⟨s, rfl, rfl, hb⟩
  | cons op ops ih =>
    intro s h1 hb
    match op with
    | SinkOp.flush =>
      rw [runOps]
      obtain ⟨s2, hrun, hlim, hb2⟩ :=
        ih s.flush (by rw [flush_limit]; exact h1)
          (by rw [flush_limit, flush_buffer]; simp; omega)
      exact ⟨s2, hrun, by rw [hlim, flush_limit], hb2⟩
    | SinkOp.write d =>
      rw [runOps]
      by_cases hfull : (s.buffer.length : Int) ≥ s.buffer_limit
      · have hne : s.buffer ≠ [] := by
          intro hnil
          rw [hnil] at hfull
          simp at hfull
          omega
        obtain ⟨c, b, hcb⟩ := List.exists_cons_of_ne_nil hne
        rw [write_full d c b hcb hfull]
        have hblen : (b.length : Int) + 1 = (s.buffer.length : Int) := by
          rw [hcb, List.length_cons]; push_cast; ring
        by_cases hn : '\n' ∈ d
        · rw [if_pos hn]
          obtain ⟨s2, hrun, hlim, hb2⟩ :=
            ih { s with buffer := [],
                        expander := s.expander ++ [(b ++ [cleanSGR d]).flatten] }
              h1 (by simp; omega)
          exact ⟨s2, by simpa using hrun, hlim, hb2⟩
        · rw [if_neg hn]
          obtain ⟨s2, hrun, hlim, hb2⟩ :=
            ih { s with buffer := b ++ [cleanSGR d] }
              h1 (by simp; omega)
          exact ⟨s2, by simpa using hrun, hlim, hb2⟩
      · rw [write_not_full d (not_le.mp hfull)]
        by_cases hn : '\n' ∈ d
        · rw [if_pos hn]
          obtain ⟨s2, hrun, hlim, hb2⟩ :=
            ih { s with buffer := [],
                        expander := s.expander ++ [(s.buffer ++ [cleanSGR d]).flatten] }
              h1 (by simp; omega)
          exact ⟨s2, by simpa using hrun, hlim, hb2⟩
        · rw [if_neg hn]
          obtain ⟨s2, hrun, hlim, hb2⟩ :=
            ih { s with buffer := s.buffer ++ [cleanSGR d] }
              h1 (by simp; omega)
          exact ⟨s2, by simpa using hrun, hlim, hb2⟩

theorem flush_empty {s : StreamToExpander} (h : s.buffer = []) :
    s.flush = s := by
  unfold StreamToExpander.flush
  rw [if_pos h]

theorem count_dropWhile {p : Char → Bool} {a : Char} (ha : ¬ p a)
    (l : List Char) : (l.dropWhile p).count a = l.count a := by
  induction l with
  | nil => simp [List.dropWhile]
  | cons c t ih =>
    by_cases h : p c
    · have hca : ¬ c = a := fun hEq => ha (hEq ▸ h)
      simp [List.dropWhile_cons_of_pos h, ih, List.count_cons, hca]
    · simp [List.dropWhile_cons_of_neg h]

theorem sgrTail_count {s r : PyStr} {a : Char} (h : sgrTail s = some r)
    (hd : a.isDigit = false) (hs : a ≠ ';') (hm : a ≠ 'm') :
    s.count a = r.count a := by
  have hs' : ¬ (';' = a) := fun hEq => hs hEq.symm
  have hm' : ¬ ('m' = a) := fun hEq => hm hEq.symm
  match s with
  | [] => simp [sgrTail] at h
  | c :: t =>
    simp only [sgrTail] at h
    split at h
    · rename_i hc
      split at h
      · rename_i r2 rest heq
        simp only [Option.some.injEq] at h
        subst h
        have hca : ¬ (c = a) := by
          intro hEq
          rw [hEq, hd] at hc
          exact Bool.noConfusion hc
        have ht : t.count a = (t.dropWhile Char.isDigit).count a :=
          (count_dropWhile (by simp [hd]) t).symm
        split at heq
        · rename_i u hsemi
          have hu : u.count a = (u.dropWhile Char.isDigit).count a :=
            (count_dropWhile (by simp [hd]) u).symm
          rw [hsemi] at ht
          rw [heq] at hu
          simp [List.count_cons, hca, hs', hm'] at ht hu ⊢
          omega
        · rw [heq] at ht
          simp [List.count_cons, hca, hm'] at ht ⊢
          omega
      · exact absurd h (by simp)
    · exact absurd h (by simp)

theorem cleanAux_count {a : Char} (ha1 : a ≠ '\x1B') (ha2 : a ≠ '[')
    (hd : a.isDigit = false) (hs : a ≠ ';') (hm : a ≠ 'm') :
    ∀ (n : Nat) (s : PyStr), s.length ≤ n →
      (cleanAux n s).count a = s.count a := by
  have haE : ¬ ('\x1B' = a) := fun hEq => ha1 hEq.symm
  have haB : ¬ ('[' = a) := fun hEq => ha2 hEq.symm
  intro n
  induction n with
  | zero =>
    intro s hlen
    have hnil : s = [] := List.eq_nil_of_length_eq_zero (Nat.le_zero.mp hlen)
    subst hnil
    simp [cleanAux]
  | succ n ih =>
    intro s hlen
    match s with
    | [] => simp [cleanAux]
    | c :: t =>
      simp only [List.length_cons, Nat.succ_le_succ_iff] at hlen
      simp only [cleanAux]
      by_cases hc : c = '\x1B'
      · rw [if_pos hc]
        subst hc
        split
        · rename_i t' t2
          split
          · rename_i rest hres
            have hlt := sgrTail_length hres
            simp only [List.length_cons] at hlen
            rw [ih rest (by omega)]
            rw [← sgrTail_count hres hd hs hm]
            simp [List.count_cons, haE, haB]
          · rename_i hres
            simp [List.count_cons, ih _ hlen]
        · rename_i t' hne
          simp [List.count_cons, ih t hlen]
      · rw [if_neg hc]
        simp [List.count_cons, ih t hlen]

/-! ### Claims -/

/-- C10: the stripping transform removes no newline characters — the count
of `'\n'` is preserved — so a string contains a newline iff its stripped
result does: the raw-fragment newline check of `write` and a
cleaned-fragment check always agree. -/
theorem c10_strip_preserves_newlines (s : PyStr) :
    (cleanSGR s).count '\n' = s.count '\n' ∧
    ('\n' ∈ cleanSGR s ↔ '\n' ∈ s) :=
  ⟨cleanAux_count (by decide) (by decide) (by decide) (by decide) (by decide)
      s.length s le_rfl,
   cleanAux_mem (by decide) (by decide) (by decide) (by decide) (by decide)
      s.length s le_rfl⟩

/-- C5 (counterexample): the code's regex `\x1B\[\d+;?\d*m` also strips
sequences whose `;` is followed by **zero** digits, such as `"\x1B[1;m"`,
which the claimed pattern `ESC [ <digits> ( ; <digits>+ )? m` does not
match — so "removes exactly the claimed pattern" is false. -/
theorem c5_counterexample :
    cleanSGR ['\x1B', '[', '1', ';', 'm'] = [] ∧
    specStrip true ['\x1B', '[', '1', ';', 'm'] = ['\x1B', '[', '1', ';', 'm'] ∧
    cleanSGR ['\x1B', '[', '1', ';', 'm'] ≠
      specStrip true ['\x1B', '[', '1', ';', 'm'] := by
  refine ⟨by decide, by decide, by decide⟩

/-- C5 (amended): the stripping step removes exactly the non-overlapping
matches of `ESC [ <digits> ( ; <digits>* )? m` — optionally `;` followed by
zero or more digits — and leaves every other character untouched:
`cleanSGR` agrees with the spec-worded scanner `specStrip false`. -/
theorem c5_strip_pattern (s : PyStr) : cleanSGR s = specStrip false s :=
  (specStripAux_false_eq s.length s).symm

/-- C9: with a non-positive `buffer_limit`, the very first `write` on a
fresh sink hits `len(buffer) >= buffer_limit` on the empty buffer and the
eviction `self.buffer.pop(0)` raises `IndexError` — modelled as `none`. -/
theorem c9_nonpositive_limit_raises (limit : Int) (data : PyStr)
    (h : limit ≤ 0) :
    (StreamToExpander.fresh limit).write data = none :=
  write_empty_full data rfl h

/-- C9 witness: at `buffer_limit = 0` the first write of `"a"` raises. -/
theorem c9_nonpositive_limit_raises_witness :
    (0 : Int) ≤ 0 ∧ (StreamToExpander.fresh 0).write ['a'] = none :=
  ⟨by decide, c9_nonpositive_limit_raises 0 ['a'] (by decide)⟩

/-- C4: `flush` renders the concatenated buffer and clears it when the
buffer is non-empty, is a no-op on an empty buffer, and hence two
consecutive flushes equal one. -/
theorem c4_flush_drains (s : StreamToExpander) :
    (s.buffer ≠ [] →
      s.flush = { s with buffer := [],
                         expander := s.expander ++ [s.buffer.flatten] }) ∧
    (s.buffer = [] → s.flush = s) ∧
    s.flush.flush = s.flush := by
  refine ⟨?_, ?_, ?_⟩
  · intro h
    unfold StreamToExpander.flush
    rw [if_neg h]
  · intro h
    exact flush_empty h
  · exact flush_empty (flush_buffer s)

/-- C4 witness: flushing `["a"]` renders it and clears; flushing a fresh
sink is a no-op; a second flush changes nothing. -/
theorem c4_flush_drains_witness :
    (⟨[['a']], 5, []⟩ : StreamToExpander).flush = ⟨[], 5, [['a']]⟩ ∧
    (StreamToExpander.fresh 5).flush = StreamToExpander.fresh 5 ∧
    (⟨[['a']], 5, []⟩ : StreamToExpander).flush.flush
      = (⟨[['a']], 5, []⟩ : StreamToExpander).flush :=
  ⟨(c4_flush_drains ⟨[['a']], 5, []⟩).1 (by decide),
   (c4_flush_drains (StreamToExpander.fresh 5)).2.1 rfl,
   (c4_flush_drains ⟨[['a']], 5, []⟩).2.2⟩

/-- C1 (counterexample): with `buffer_limit = 1`, writing the newline-free
fragments `"a"` then `"b"` evicts `"a"`, so after the final flush the
rendered concatenation is `"b"` while the written fragments (SGR-stripped)
concatenate to `"ab"` — the claim fails once eviction occurs. -/
theorem c1_counterexample :
    ((StreamToExpander.fresh 1).writeMany [['a'], ['b']]).map
        (fun s2 => s2.flush.expander.flatten) = some ['b'] ∧
    (([['a'], ['b']] : List PyStr).map cleanSGR).flatten = ['a', 'b'] ∧
    (['b'] : PyStr) ≠ ['a', 'b'] := by
  refine ⟨by decide, by decide, by decide⟩

/-- C1 (amended): provided the buffer never reaches capacity during the
run — in particular whenever the number of written fragments is at most
`buffer_limit` — the concatenation of all rendered outputs after a final
flush equals the concatenation of the written fragments with SGR escape
sequences removed. -/
theorem c1_render_concat (limit : Int) (ws : List PyStr)
    (h : (ws.length : Int) ≤ limit) :
    ∃ s2, (StreamToExpander.fresh limit).writeMany ws = some s2 ∧
      s2.flush.expander.flatten = (ws.map cleanSGR).flatten := by
  obtain ⟨s2, hrun, hlim, hconcat⟩ :=
    writeMany_no_evict ws (StreamToExpander.fresh limit)
      (by simp [StreamToExpander.fresh]; omega)
  refine ⟨s2, hrun, ?_⟩
  rw [flush_expander_flatten, hconcat]
  simp [StreamToExpander.fresh]

/-- C1 witness: two fragments, one colored and newline-terminated, on a
fresh sink with the capacity hypothesis satisfied. -/
theorem c1_render_concat_witness :
    ((([['h', 'i', '\n'], ['y']] : List PyStr).length : Int) ≤ 2) ∧
    ∃ s2, (StreamToExpander.fresh 2).writeMany [['h', 'i', '\n'], ['y']]
        = some s2 ∧
      s2.flush.expander.flatten
        = (([['h', 'i', '\n'], ['y']] : List PyStr).map cleanSGR).flatten :=
  ⟨by decide, c1_render_concat 2 [['h', 'i', '\n'], ['y']] (by decide)⟩

/-- C2: with `buffer_limit ≥ 1`, any sequence of `write`/`flush` calls on a
fresh sink runs without error and ends with `len(buffer) ≤ buffer_limit`
(and since the sequence is arbitrary, the bound holds after every prefix);
concretely, writing `"a"`, `"b"`, `"c"` at `buffer_limit = 2` evicts the
oldest fragment `"a"`, leaving the buffer `["b", "c"]`. -/
theorem c2_buffer_bounded (limit : Int) (ops : List SinkOp) (h : 1 ≤ limit) :
    (∃ s2, runOps (StreamToExpander.fresh limit) ops = some s2 ∧
        (s2.buffer.length : Int) ≤ limit) ∧
    ((StreamToExpander.fresh 2).writeMany [['a'], ['b'], ['c']]).map
        StreamToExpander.buffer = some [['b'], ['c']] := by
  constructor
  · obtain ⟨s2, hrun, hlim, hb⟩ :=
      runOps_bounded ops (StreamToExpander.fresh limit) h
        (by simp [StreamToExpander.fresh]; omega)
    refine ⟨s2, hrun, ?_⟩
    rw [← show s2.buffer_limit = limit from hlim]
    exact hb
  · decide

/-- C2 witness: three writes at `buffer_limit = 2`. -/
theorem c2_buffer_bounded_witness :
    (1 : Int) ≤ 2 ∧
    ((∃ s2, runOps (StreamToExpander.fresh 2)
          [SinkOp.write ['a'], SinkOp.write ['b'], SinkOp.write ['c']]
        = some s2 ∧ (s2.buffer.length : Int) ≤ 2) ∧
     ((StreamToExpander.fresh 2).writeMany [['a'], ['b'], ['c']]).map
        StreamToExpander.buffer = some [['b'], ['c']]) :=
  ⟨by decide,
   c2_buffer_bounded 2
     [SinkOp.write ['a'], SinkOp.write ['b'], SinkOp.write ['c']]
     (by decide)⟩

/-- C3: a successful `write` pops the oldest fragment exactly when the
buffer is at capacity, appends the cleaned fragment, and then performs
exactly one display update — rendering the whole current buffer joined in
arrival order and clearing it — iff the raw incoming `data` contains a
newline (the test `"\n" in data` is on the unstripped fragment), and zero
display updates otherwise. -/
theorem c3_write_render (s s2 : StreamToExpander) (data : PyStr)
    (h : s.write data = some s2) :
    ∃ b, s.popIfFull = some b ∧
      (if '\n' ∈ data then
        s2.expander = s.expander ++ [(b ++ [cleanSGR data]).flatten] ∧
          s2.buffer = []
       else
        s2.expander = s.expander ∧ s2.buffer = b ++ [cleanSGR data]) := by
  unfold StreamToExpander.write at h
  rcases hp : s.popIfFull with - | b
  · rw [hp] at h
    exact Option.noConfusion h
  · rw [hp] at h
    refine ⟨b, rfl, ?_⟩
    by_cases hn : '\n' ∈ data
    · simp only [hn, if_true, Option.some.injEq] at h
      rw [if_pos hn, ← h]
      exact ⟨rfl, rfl⟩
    · simp only [hn, if_false, Option.some.injEq] at h
      rw [if_neg hn, ← h]
      exact ⟨rfl, rfl⟩

/-- C3 witness: writing `"x\n"` to a fresh sink renders once and clears. -/
theorem c3_write_render_witness :
    (StreamToExpander.fresh 3).write ['x', '\n']
        = some ⟨[], 3, [['x', '\n']]⟩ ∧
    ∃ b, (StreamToExpander.fresh 3).popIfFull = some b ∧
      (if '\n' ∈ (['x', '\n'] : PyStr) then
        (⟨[], 3, [['x', '\n']]⟩ : StreamToExpander).expander
            = (StreamToExpander.fresh 3).expander
              ++ [(b ++ [cleanSGR ['x', '\n']]).flatten] ∧
          (⟨[], 3, [['x', '\n']]⟩ : StreamToExpander).buffer = []
       else
        (⟨[], 3, [['x', '\n']]⟩ : StreamToExpander).expander
            = (StreamToExpander.fresh 3).expander ∧
          (⟨[], 3, [['x', '\n']]⟩ : StreamToExpander).buffer
            = b ++ [cleanSGR ['x', '\n']]) :=
  ⟨by decide,
   c3_write_render (StreamToExpander.fresh 3) ⟨[], 3, [['x', '\n']]⟩
     ['x', '\n'] (by decide)⟩

/-- C6: on a sink with `buffer_limit ≥ 1`, `write` succeeds on every string
fragment — malformed, truncated or unmatched escape sequences included —
and (`flush` being a total function) `flush` never raises either; any
content in which no match of the escape pattern starts anywhere — such as
the truncated `"\x1B["` or an unmatched `"\x1B[12"` — passes through the
stripping step, and hence to the buffer, unchanged. -/
theorem c6_no_raise (s : StreamToExpander) (data : PyStr)
    (h : 1 ≤ s.buffer_limit) :
    (∃ s2, s.write data = some s2) ∧
    (hasSGRMatch data = false → cleanSGR data = data) := by
  constructor
  · by_cases hfull : (s.buffer.length : Int) ≥ s.buffer_limit
    · have hne : s.buffer ≠ [] := by
        intro hnil
        rw [hnil] at hfull
        simp at hfull
        omega
      obtain ⟨c, b, hcb⟩ := List.exists_cons_of_ne_nil hne
      exact ⟨_, write_full data c b hcb hfull⟩
    · exact ⟨_, write_not_full data (not_le.mp hfull)⟩
  · intro hno
    exact cleanSGR_no_match hno

/-- C6 witness: the truncated escape fragment `"\x1B["` (no digits, no `m`)
is written without error on a default-limit sink, and — containing no match
of the escape pattern — it is unchanged by stripping. -/
theorem c6_no_raise_witness :
    (1 : Int) ≤ (StreamToExpander.fresh 10000).buffer_limit ∧
    ((∃ s2, (StreamToExpander.fresh 10000).write ['\x1B', '['] = some s2) ∧
     (hasSGRMatch ['\x1B', '['] = false →
       cleanSGR ['\x1B', '['] = ['\x1B', '['])) :=
  ⟨by decide,
   c6_no_raise (StreamToExpander.fresh 10000) ['\x1B', '['] (by decide)⟩

/-- C7: a fragment of printable text — no ESC, no control characters (so in
particular no newline) — written to a fresh sink with positive limit and
then flushed renders byte-for-byte identical to the input: stripping is the
identity on escape-free text. -/
theorem c7_roundtrip (limit : Int) (data : PyStr) (h : 1 ≤ limit)
    (hprint : ∀ c ∈ data, 32 ≤ c.toNat ∧ c.toNat ≠ 127) :
    ∃ s2, (StreamToExpander.fresh limit).write data = some s2 ∧
      s2.flush.expander.flatten = data := by
  have hesc : '\x1B' ∉ data := fun hm => absurd (hprint _ hm).1 (by decide)
  have hn : '\n' ∉ data := fun hm => absurd (hprint _ hm).1 (by decide)
  refine ⟨_, write_not_full data (by simp [StreamToExpander.fresh]; omega), ?_⟩
  rw [if_neg hn, flush_expander_flatten]
  simp [StreamToExpander.fresh, cleanSGR_no_esc hesc]

/-- C7 witness: the printable fragment `"hi"`. -/
theorem c7_roundtrip_witness :
    (1 : Int) ≤ 10000 ∧ (∀ c ∈ (['h', 'i'] : PyStr), 32 ≤ c.toNat ∧ c.toNat ≠ 127) ∧
    ∃ s2, (StreamToExpander.fresh 10000).write ['h', 'i'] = some s2 ∧
      s2.flush.expander.flatten = ['h', 'i'] :=
  ⟨by decide, by decide, c7_roundtrip 10000 ['h', 'i'] (by decide) (by decide)⟩

/-- C8: writing `"Hello\x1B[31mWorld\x1B[0m\n"` to a sink whose buffer is
empty (and whose limit is at least 1) performs exactly one render whose
content is `"HelloWorld\n"` — trailing newline preserved — and leaves the
buffer empty. -/
theorem c8_hello_world (s : StreamToExpander) (hb : s.buffer = [])
    (h : 1 ≤ s.buffer_limit) :
    s.write ("Hello\x1B[31mWorld\x1B[0m\n").data =
      some { s with buffer := [],
                    expander := s.expander ++ [("HelloWorld\n").data] } := by
  have h0 : (s.buffer.length : Int) < s.buffer_limit := by
    rw [hb]
    simp
    omega
  rw [write_not_full _ h0,
    if_pos (by decide : '\n' ∈ ("Hello\x1B[31mWorld\x1B[0m\n").data), hb]
  rw [show (([] : List PyStr)
        ++ [cleanSGR ("Hello\x1B[31mWorld\x1B[0m\n").data]).flatten
      = ("HelloWorld\n").data from by decide]

/-- C8 witness: on a fresh default sink. -/
theorem c8_hello_world_witness :
    (StreamToExpander.fresh 10000).buffer = [] ∧
    (1 : Int) ≤ (StreamToExpander.fresh 10000).buffer_limit ∧
    (StreamToExpander.fresh 10000).write ("Hello\x1B[31mWorld\x1B[0m\n").data
      = some ⟨[], 10000, [("HelloWorld\n").data]⟩ :=
  ⟨rfl, by decide,
   c8_hello_world (StreamToExpander.fresh 10000) rfl (by decide)⟩
